import Mathlib

/-!
Shallow embedding of `src/download_ip_ranges.py`, centred on the function
`consolidate_networks` (lines 79-138 of the source) together with the parts
of the Python standard library module `ipaddress` that it calls
(`IPv4Network(_, strict=False)`, `supernet_of`, `network_address`,
`broadcast_address`, `summarize_address_range`).

Strings are modelled as `List Char`; IPv4 addresses are natural numbers
below `2 ^ 32`; parse failures (the `except` clause at line 90 of the
source) are modelled with `Option`.
-/

/-! ### Character and string helpers (models of Python `str` methods) -/

/-- A character is an ASCII decimal digit.  This models the conjunction
`octet_str.isascii() and octet_str.isdigit()` used by
`ipaddress._parse_octet`: `isdigit` alone also accepts non-ASCII digit
characters, and the `isascii` conjunct restricts it back to `0`-`9`. -/
def isAsciiDigit (c : Char) : Bool := 48 ≤ c.toNat && c.toNat ≤ 57

/-- Numeric value of an ASCII digit character. -/
def digitVal (c : Char) : Nat := c.toNat - 48

/-- ASCII whitespace, as stripped by Python `str.strip()` (restricted to the
ASCII whitespace characters; the tokens handled by the program contain no
other whitespace). -/
def isPySpace (c : Char) : Bool :=
  c = ' ' || c = '\t' || c = '\n' || c = '\x0b' || c = '\x0c' || c = '\r'

/-- Python `str.strip()`: remove leading and trailing whitespace. -/
def pyStrip (s : List Char) : List Char :=
  ((s.dropWhile isPySpace).reverse.dropWhile isPySpace).reverse

/-- Python `str.split(sep)` for a one-character separator `sep`: split at
every occurrence of the separator, keeping empty pieces, so that
for example splitting `"a//b"` at each slash gives three pieces. -/
def splitOnChar (sep : Char) : List Char → List (List Char)
  | [] => [[]]
  | c :: cs =>
    if c = sep then [] :: splitOnChar sep cs
    else
      match splitOnChar sep cs with
      | [] => [[c]]
      | g :: gs => (c :: g) :: gs

/-- Value of a string of decimal digits, most significant first: Python
`int(s, 10)` on a string of digits. -/
def charsToNat (s : List Char) : Nat := s.foldl (fun a c => a * 10 + digitVal c) 0

/-! ### The `ipaddress` standard library functions used by the source -/

/-- Python `ipaddress._parse_octet`: an octet of a dotted quad must be a
nonempty string of at most three ASCII decimal digits, without leading
zeros (`"0"` itself is allowed), with value at most `255`. -/
def parse_octet (s : List Char) : Option Nat :=
  if s = [] then none
  else if ! s.all isAsciiDigit then none
  else if s.length > 3 then none
  else if s ≠ ['0'] ∧ s.head? = some '0' then none
  else
    let v := charsToNat s
    if v > 255 then none
    else some v

/-- Python `ipaddress.IPv4Address._ip_int_from_string`: a dotted quad
`"a.b.c.d"` becomes the 32-bit big-endian integer built from its four
octets (`int.from_bytes(octets, 'big')`). -/
def ip_int_from_chars (s : List Char) : Option Nat :=
  if s = [] then none
  else
    match splitOnChar '.' s with
    | [a, b, c, d] =>
      match parse_octet a, parse_octet b, parse_octet c, parse_octet d with
      | some oa, some ob, some oc, some od =>
        some (((oa * 256 + ob) * 256 + oc) * 256 + od)
      | _, _, _, _ => none
    | _ => none

/-- `ipaddress.IPv4Network._ALL_ONES`. -/
def ALL_ONES : Nat := 2 ^ 32 - 1

/-- Python `_ip_int_from_prefix`: the netmask integer for a prefix length,
`ALL_ONES ^ (ALL_ONES >> prefixlen)`. -/
def netmaskOf (p : Nat) : Nat := ALL_ONES ^^^ (ALL_ONES >>> p)

/-- Python hostmask: `int(netmask) ^ ALL_ONES`. -/
def hostmaskOf (p : Nat) : Nat := netmaskOf p ^^^ ALL_ONES

/-- Auxiliary for `count_righthand_zero_bits`: number of trailing zero bits
of `n`, capped by the fuel argument (the cap plays the role of the
`min(bits, ...)` in the Python source). -/
def crzbAux : Nat → Nat → Nat
  | 0, _ => 0
  | b + 1, n => if n % 2 = 1 then 0 else crzbAux b (n / 2) + 1

/-- Python `ipaddress._count_righthand_zero_bits(number, bits)`:
`bits` if `number == 0`, otherwise `min(bits, number of trailing zeros)`. -/
def count_righthand_zero_bits (number bits : Nat) : Nat :=
  if number = 0 then bits else crzbAux bits number

/-- Auxiliary for `bit_length`, with enough fuel for any number below
`2 ^ 64` (every number in this development is below `2 ^ 33`). -/
def bitLenAux : Nat → Nat → Nat
  | 0, _ => 0
  | f + 1, n => if n = 0 then 0 else bitLenAux f (n / 2) + 1

/-- Python `int.bit_length()` for arguments below `2 ^ 64`. -/
def bit_length (n : Nat) : Nat := bitLenAux 64 n

/-- Python `_prefix_from_prefix_string`: the mask part must be a nonempty
all-digit ASCII string (so `int(-, 10)` cannot see a sign or spaces) whose
value is at most `32`.  Leading zeros are accepted here. -/
def prefixlenFromDigits (s : List Char) : Option Nat :=
  if s ≠ [] ∧ s.all isAsciiDigit then
    let p := charsToNat s
    if p ≤ 32 then some p else none
  else none

/-- Python `_prefix_from_ip_int`: recover a prefix length from a netmask
integer, which must consist of `prefixlen` one bits followed by zero bits
(`leading_ones == all_ones` in the source). -/
def prefixlenFromIpInt (ip : Nat) : Option Nat :=
  let tz := count_righthand_zero_bits ip 32
  let p := 32 - tz
  if ip >>> tz = 2 ^ p - 1 then some p else none

/-- Python `_prefix_from_ip_string`: parse the mask part as a dotted quad
and accept it if it is a valid netmask, or, after flipping all 32 bits,
a valid hostmask. -/
def prefixlenFromIpChars (s : List Char) : Option Nat :=
  match ip_int_from_chars s with
  | none => none
  | some ip =>
    match prefixlenFromIpInt ip with
    | some p => some p
    | none => prefixlenFromIpInt (ip ^^^ ALL_ONES)

/-- Python `IPv4Network._make_netmask` on a string argument, returning the
prefix length: first try the decimal form, then the dotted
netmask/hostmask form. -/
def make_netmask (s : List Char) : Option Nat :=
  match prefixlenFromDigits s with
  | some p => some p
  | none => prefixlenFromIpChars s

/-- The single entity of the data model: a network is its network address
(a 32-bit integer) together with a prefix length. -/
structure IPv4Network where
  network_address : Nat
  prefixlen : Nat
deriving DecidableEq

/-- Python `IPv4Network.broadcast_address`, as an integer:
`int(network_address) | int(hostmask)`. -/
def IPv4Network.broadcast_address (n : IPv4Network) : Nat :=
  n.network_address ||| hostmaskOf n.prefixlen

/-- Python `a.supernet_of(b)`: `b` is a subnet of `a`, non-strictly
(`b.network_address >= a.network_address and
b.broadcast_address <= a.broadcast_address`). -/
def IPv4Network.supernet_of (a b : IPv4Network) : Prop :=
  a.network_address ≤ b.network_address ∧ b.broadcast_address ≤ a.broadcast_address

instance (a b : IPv4Network) : Decidable (a.supernet_of b) :=
  inferInstanceAs (Decidable (And _ _))

/-- Python `IPv4Network(s, strict=False)` on a string: split off the mask
at the slash (at most one slash permitted; a missing mask means `/32`),
parse the address and the mask, and clear the host bits of the address
(the `strict=False` branch `packed & int(self.netmask)`). -/
def ipv4NetworkOfChars (s : List Char) : Option IPv4Network :=
  match splitOnChar '/' s with
  | [addr] =>
    match ip_int_from_chars addr with
    | some ip => some { network_address := ip &&& netmaskOf 32, prefixlen := 32 }
    | none => none
  | [addr, mask] =>
    match ip_int_from_chars addr, make_netmask mask with
    | some ip, some p => some { network_address := ip &&& netmaskOf p, prefixlen := p }
    | _, _ => none
  | _ => none

/-- Python `ipaddress.summarize_address_range(first, last)` for IPv4
integers: repeatedly take the largest CIDR block that starts at `first`,
is aligned there, and does not reach past `last`. -/
def summarize_address_range (first last : Nat) : List IPv4Network :=
  if h : first ≤ last then
    { network_address := first,
      prefixlen := 32 - min (count_righthand_zero_bits first 32)
        (bit_length (last - first + 1) - 1) } ::
      summarize_address_range
        (first + 2 ^ min (count_righthand_zero_bits first 32)
          (bit_length (last - first + 1) - 1)) last
  else []
termination_by last + 1 - first
decreasing_by
  have hpos : 0 < 2 ^ min (count_righthand_zero_bits first 32)
      (bit_length (last - first + 1) - 1) :=
    Nat.pos_pow_of_pos _ (by omega)
  omega

/-! ### The consolidation algorithm (`consolidate_networks`, lines 79-138) -/

/-- The merge loop of `consolidate_networks` (source lines 102-136): one
forward pass over the sorted list, keeping a `current` network.  A network
contained in `current` is dropped; a network containing `current` replaces
it; a partially overlapping network triggers the summarization branch; a
disjoint network makes the loop emit `current` and continue from the new
network.  The final `current` is emitted at the end. -/
def consolidateLoop (current : IPv4Network) : List IPv4Network → List IPv4Network
  | [] => [current]
  | next_net :: rest =>
    if current.supernet_of next_net then
      consolidateLoop current rest
    else if next_net.supernet_of current then
      consolidateLoop next_net rest
    else if current.network_address ≤ next_net.broadcast_address ∧
        next_net.network_address ≤ current.broadcast_address then
      match summarize_address_range
          (min current.network_address next_net.network_address)
          (max current.broadcast_address next_net.broadcast_address) with
      | [single] => consolidateLoop single rest
      | _ => current :: consolidateLoop next_net rest
    else
      current :: consolidateLoop next_net rest

/-- One iteration of the parsing loop at source lines 83-92: append `/32`
when the token has no slash, then build the network from the stripped
token, with parse failures skipped by the caller. -/
def parseNetworkToken (ip_str : List Char) : Option IPv4Network :=
  ipv4NetworkOfChars
    (pyStrip (if ip_str.contains '/' then ip_str else ip_str ++ ['/', '3', '2']))

/-- The sort key of source line 95: ascending `network_address`. -/
def netLE (a b : IPv4Network) : Prop := a.network_address ≤ b.network_address

instance : DecidableRel netLE := fun a b => inferInstanceAs (Decidable (_ ≤ _))

instance : IsTotal IPv4Network netLE := ⟨fun a b => Nat.le_total _ _⟩

instance : IsTrans IPv4Network netLE := ⟨fun _ _ _ h1 h2 => Nat.le_trans h1 h2⟩

/-- `consolidate_networks` (source lines 79-138): parse the tokens,
skipping the unparsable ones, sort the networks by network address with a
stable sort (insertion sort here, Timsort in Python; the development
proves the output does not depend on the choice), and run the merge
loop; an empty list consolidates to an empty list. -/
def consolidate_networks (ip_list : List (List Char)) : List IPv4Network :=
  match List.insertionSort netLE (ip_list.filterMap parseNetworkToken) with
  | [] => []
  | current :: rest => consolidateLoop current rest

/-- Python `str(IPv4Network)` for argument values below `1000`: decimal
digits, most significant first, no padding. -/
def natChars (n : Nat) : List Char :=
  if n < 10 then [Char.ofNat (48 + n)]
  else if n < 100 then [Char.ofNat (48 + n / 10), Char.ofNat (48 + n % 10)]
  else [Char.ofNat (48 + n / 100), Char.ofNat (48 + n / 10 % 10), Char.ofNat (48 + n % 10)]

/-- Python `str(network)` as written to the output file at source line
247: the four big-endian bytes of the network address as a dotted quad,
then a slash and the prefix length. -/
def format_network (n : IPv4Network) : List Char :=
  natChars (n.network_address / 2 ^ 24 % 256) ++
    '.' :: natChars (n.network_address / 2 ^ 16 % 256) ++
    '.' :: natChars (n.network_address / 2 ^ 8 % 256) ++
    '.' :: natChars (n.network_address % 256) ++
    '/' :: natChars n.prefixlen

/-- Branch tracker for the merge loop: `true` exactly when running the
loop of `consolidateLoop` on the same input would execute the
overlap-summarization branch (the branch at source lines 111-129, guarded
by the two address comparisons after both containment tests fail) at least
once.  The branch structure mirrors `consolidateLoop` step for step. -/
def overlapBranchTaken (current : IPv4Network) : List IPv4Network → Bool
  | [] => false
  | next_net :: rest =>
    if current.supernet_of next_net then
      overlapBranchTaken current rest
    else if next_net.supernet_of current then
      overlapBranchTaken next_net rest
    else if current.network_address ≤ next_net.broadcast_address ∧
        next_net.network_address ≤ current.broadcast_address then
      true
    else
      overlapBranchTaken next_net rest

/-! ### Canonical networks -/

/-- A canonical CIDR block: prefix length at most 32, 32-bit network
address, and no host bits set (the start is divisible by the block
size `2 ^ (32 - prefixlen)`). -/
def Canonical (n : IPv4Network) : Prop :=
  n.prefixlen ≤ 32 ∧ n.network_address < 2 ^ 32 ∧
    n.network_address % 2 ^ (32 - n.prefixlen) = 0

instance (n : IPv4Network) : Decidable (Canonical n) :=
  inferInstanceAs (Decidable (And _ _))

/-! ### Bitwise arithmetic toolkit -/

theorem testBit_two_pow_mul_add_lo (k q r i : Nat) (hi : i < k) :
    Nat.testBit (2 ^ k * q + r) i = Nat.testBit r i := by
  rw [Nat.testBit_to_div_mod, Nat.testBit_to_div_mod]
  have hsplit : 2 ^ k * q + r = r + 2 ^ i * (2 ^ (k - i) * q) := by
    rw [← Nat.mul_assoc, ← Nat.pow_add]
    have h : i + (k - i) = k := by omega
    rw [h]
    omega
  rw [hsplit, Nat.add_mul_div_left _ _ (Nat.pos_pow_of_pos i (by omega))]
  obtain ⟨t, ht⟩ : ∃ t, 2 ^ (k - i) * q = 2 * t := by
    obtain ⟨d, hd⟩ : ∃ d, k - i = d + 1 := ⟨k - i - 1, by omega⟩
    refine ⟨2 ^ d * q, ?_⟩
    rw [hd, Nat.pow_succ]
    ring
  rw [ht]
  have h2 : (r / 2 ^ i + 2 * t) % 2 = r / 2 ^ i % 2 := by omega
  rw [h2]

theorem testBit_two_pow_mul_add_hi (k q r j : Nat) (hr : r < 2 ^ k) :
    Nat.testBit (2 ^ k * q + r) (k + j) = Nat.testBit q j := by
  rw [Nat.testBit_to_div_mod, Nat.testBit_to_div_mod]
  have h1 : (2 ^ k * q + r) / 2 ^ (k + j) = q / 2 ^ j := by
    rw [Nat.pow_add, ← Nat.div_div_eq_div_mul]
    have h2 : (2 ^ k * q + r) / 2 ^ k = q := by
      rw [Nat.add_comm, Nat.add_mul_div_left _ _ (Nat.pos_pow_of_pos k (by omega)),
        Nat.div_eq_of_lt hr, Nat.zero_add]
    rw [h2]
  rw [h1]

theorem shiftRight_all_ones (p : Nat) (hp : p ≤ 32) :
    ALL_ONES >>> p = 2 ^ (32 - p) - 1 := by
  rw [Nat.shiftRight_eq_div_pow, ALL_ONES]
  have hpos : 0 < 2 ^ p := Nat.pos_pow_of_pos p (by omega)
  have hmul : 2 ^ p * 2 ^ (32 - p) = 2 ^ 32 := by
    rw [← Nat.pow_add]
    congr 1
    omega
  have hpred := Nat.mul_pred (2 ^ p) (2 ^ (32 - p))
  rw [Nat.pred_eq_sub_one] at hpred
  have hle : 2 ^ p ≤ 2 ^ 32 := Nat.pow_le_pow_right (by omega) hp
  have hone : 0 < 2 ^ (32 - p) := Nat.pos_pow_of_pos _ (by omega)
  have hsplit : 2 ^ 32 - 1 = 2 ^ p * (2 ^ (32 - p) - 1) + (2 ^ p - 1) := by omega
  rw [hsplit, Nat.add_comm (2 ^ p * (2 ^ (32 - p) - 1)) (2 ^ p - 1),
    Nat.add_mul_div_left _ _ hpos,
    Nat.div_eq_of_lt (show 2 ^ p - 1 < 2 ^ p by omega), Nat.zero_add]

theorem netmaskOf_eq (p : Nat) (hp : p ≤ 32) : netmaskOf p = 2 ^ 32 - 2 ^ (32 - p) := by
  rw [netmaskOf, shiftRight_all_ones p hp]
  have hmul : 2 ^ (32 - p) * 2 ^ p = 2 ^ 32 := by
    rw [← Nat.pow_add]
    congr 1
    omega
  have hpred := Nat.mul_pred (2 ^ (32 - p)) (2 ^ p)
  rw [Nat.pred_eq_sub_one] at hpred
  have hle : 2 ^ (32 - p) ≤ 2 ^ 32 := Nat.pow_le_pow_right (by omega) (by omega)
  have hone : 0 < 2 ^ p := Nat.pos_pow_of_pos _ (by omega)
  have hsplit : 2 ^ 32 - 2 ^ (32 - p) = 2 ^ (32 - p) * (2 ^ p - 1) + 0 := by omega
  apply Nat.eq_of_testBit_eq
  intro i
  rw [ALL_ONES, Nat.testBit_xor, Nat.testBit_two_pow_sub_one, Nat.testBit_two_pow_sub_one,
    hsplit]
  by_cases hik : i < 32 - p
  · rw [testBit_two_pow_mul_add_lo _ _ _ _ hik, Nat.zero_testBit]
    have h1 : i < 32 := by omega
    simp [h1, hik]
  · have hi2 : i = (32 - p) + (i - (32 - p)) := by omega
    rw [hi2, testBit_two_pow_mul_add_hi _ _ _ _ (Nat.pos_pow_of_pos _ (by omega)),
      Nat.testBit_two_pow_sub_one]
    by_cases h32 : (32 - p) + (i - (32 - p)) < 32
    · have h1 : ¬ ((32 - p) + (i - (32 - p)) < 32 - p) := by omega
      have h2 : i - (32 - p) < p := by omega
      simp [h32, h1, h2]
    · have h1 : ¬ ((32 - p) + (i - (32 - p)) < 32 - p) := by omega
      have h2 : ¬ (i - (32 - p) < p) := by omega
      simp [h32, h1, h2]

theorem hostmaskOf_eq (p : Nat) (hp : p ≤ 32) : hostmaskOf p = 2 ^ (32 - p) - 1 := by
  rw [hostmaskOf, netmaskOf, Nat.xor_comm ALL_ONES (ALL_ONES >>> p), Nat.xor_assoc,
    Nat.xor_self, Nat.xor_zero, shiftRight_all_ones p hp]

theorem lor_aligned (k x : Nat) (hx : x % 2 ^ k = 0) :
    x ||| (2 ^ k - 1) = x + (2 ^ k - 1) := by
  obtain ⟨q, hq⟩ : 2 ^ k ∣ x := Nat.dvd_of_mod_eq_zero hx
  subst hq
  apply Nat.eq_of_testBit_eq
  intro i
  rw [Nat.testBit_lor]
  by_cases hik : i < k
  · have h0 : Nat.testBit (2 ^ k * q) i = false := by
      have h := testBit_two_pow_mul_add_lo k q 0 i hik
      simpa using h
    rw [testBit_two_pow_mul_add_lo _ _ _ _ hik, h0, Nat.testBit_two_pow_sub_one]
    simp [hik]
  · have hi2 : i = k + (i - k) := by omega
    have hone : 1 ≤ 2 ^ k := Nat.one_le_two_pow
    rw [hi2, testBit_two_pow_mul_add_hi _ _ _ _ (by omega)]
    have h2 : Nat.testBit (2 ^ k * q) (k + (i - k)) = Nat.testBit q (i - k) := by
      have h := testBit_two_pow_mul_add_hi k q 0 (i - k) (by omega)
      simpa using h
    rw [h2, Nat.testBit_two_pow_sub_one]
    have h3 : ¬ (k + (i - k) < k) := by omega
    simp [h3]

theorem land_netmask (p x : Nat) (hp : p ≤ 32) (hx : x < 2 ^ 32) :
    x &&& netmaskOf p = 2 ^ (32 - p) * (x / 2 ^ (32 - p)) := by
  have hmul : 2 ^ (32 - p) * 2 ^ p = 2 ^ 32 := by
    rw [← Nat.pow_add]
    congr 1
    omega
  have hpred := Nat.mul_pred (2 ^ (32 - p)) (2 ^ p)
  rw [Nat.pred_eq_sub_one] at hpred
  have hle : 2 ^ (32 - p) ≤ 2 ^ 32 := Nat.pow_le_pow_right (by omega) (by omega)
  have hone : 0 < 2 ^ p := Nat.pos_pow_of_pos _ (by omega)
  have hm : netmaskOf p = 2 ^ (32 - p) * (2 ^ p - 1) + 0 := by
    rw [netmaskOf_eq p hp]
    omega
  have hxeq : 2 ^ (32 - p) * (x / 2 ^ (32 - p)) + x % 2 ^ (32 - p) = x :=
    Nat.div_add_mod x (2 ^ (32 - p))
  have hrlt : x % 2 ^ (32 - p) < 2 ^ (32 - p) :=
    Nat.mod_lt x (Nat.pos_pow_of_pos _ (by omega))
  have hqlt : x / 2 ^ (32 - p) < 2 ^ p := by
    apply Nat.div_lt_of_lt_mul
    omega
  apply Nat.eq_of_testBit_eq
  intro i
  rw [Nat.testBit_land, hm]
  by_cases hik : i < 32 - p
  · rw [testBit_two_pow_mul_add_lo _ _ _ _ hik, Nat.zero_testBit, Bool.and_false]
    have h := testBit_two_pow_mul_add_lo (32 - p) (x / 2 ^ (32 - p)) 0 i hik
    simp only [Nat.add_zero] at h
    rw [h, Nat.zero_testBit]
  · have hi2 : i = (32 - p) + (i - (32 - p)) := by omega
    rw [hi2, testBit_two_pow_mul_add_hi _ _ _ _ (Nat.pos_pow_of_pos _ (by omega)),
      Nat.testBit_two_pow_sub_one]
    have hxbit : Nat.testBit x ((32 - p) + (i - (32 - p))) =
        Nat.testBit (x / 2 ^ (32 - p)) (i - (32 - p)) := by
      conv =>
        lhs
        rw [← hxeq]
      rw [testBit_two_pow_mul_add_hi _ _ _ _ hrlt]
    have hqbit : Nat.testBit (2 ^ (32 - p) * (x / 2 ^ (32 - p)))
        ((32 - p) + (i - (32 - p))) = Nat.testBit (x / 2 ^ (32 - p)) (i - (32 - p)) := by
      have h := testBit_two_pow_mul_add_hi (32 - p) (x / 2 ^ (32 - p)) 0 (i - (32 - p))
        (Nat.pos_pow_of_pos _ (by omega))
      simpa using h
    rw [hxbit, hqbit]
    by_cases hjp : i - (32 - p) < p
    · simp [hjp]
    · have hqz : Nat.testBit (x / 2 ^ (32 - p)) (i - (32 - p)) = false := by
        apply Nat.testBit_lt_two_pow
        calc x / 2 ^ (32 - p) < 2 ^ p := hqlt
          _ ≤ 2 ^ (i - (32 - p)) := Nat.pow_le_pow_right (by omega) (by omega)
      simp [hjp, hqz]

/-! ### Arithmetic facts about canonical blocks -/

/-- For a canonical block the broadcast address is the last address of the
block: start plus block size minus one. -/
theorem broadcast_eq {n : IPv4Network} (h : Canonical n) :
    n.broadcast_address = n.network_address + (2 ^ (32 - n.prefixlen) - 1) := by
  obtain ⟨h1, h2, h3⟩ := h
  rw [IPv4Network.broadcast_address, hostmaskOf_eq _ h1, lor_aligned _ _ h3]

theorem start_le_broadcast {n : IPv4Network} (h : Canonical n) :
    n.network_address ≤ n.broadcast_address := by
  rw [broadcast_eq h]
  omega

theorem supernet_refl (a : IPv4Network) : a.supernet_of a :=
  ⟨Nat.le_refl _, Nat.le_refl _⟩

theorem supernet_trans {a b c : IPv4Network} (h1 : a.supernet_of b)
    (h2 : b.supernet_of c) : a.supernet_of c :=
  ⟨Nat.le_trans h1.1 h2.1, Nat.le_trans h2.2 h1.2⟩

/-- Mutual containment of canonical blocks forces equality. -/
theorem supernet_antisymm {a b : IPv4Network} (ha : Canonical a) (hb : Canonical b)
    (h1 : a.supernet_of b) (h2 : b.supernet_of a) : a = b := by
  have hA : a.network_address = b.network_address := Nat.le_antisymm h1.1 h2.1
  have hB : b.broadcast_address = a.broadcast_address := Nat.le_antisymm h1.2 h2.2
  rw [broadcast_eq ha, broadcast_eq hb, hA] at hB
  have hups : 1 ≤ 2 ^ (32 - a.prefixlen) := Nat.one_le_two_pow
  have hups2 : 1 ≤ 2 ^ (32 - b.prefixlen) := Nat.one_le_two_pow
  have hsz : 2 ^ (32 - b.prefixlen) = 2 ^ (32 - a.prefixlen) := by omega
  have hexp : 32 - b.prefixlen = 32 - a.prefixlen :=
    Nat.pow_right_injective (Nat.le_refl 2) hsz
  have hpl : a.prefixlen = b.prefixlen := by
    have := ha.1
    have := hb.1
    omega
  cases a
  cases b
  simp only [IPv4Network.mk.injEq]
  exact ⟨hA, hpl⟩

/-- The laminar property of canonical CIDR blocks: two canonical blocks
whose ranges intersect are comparable by containment (so partial,
non-containing overlap is impossible). -/
theorem cidr_laminar {a b : IPv4Network} (ha : Canonical a) (hb : Canonical b)
    (hab : a.network_address ≤ b.network_address)
    (hov : b.network_address ≤ a.broadcast_address) :
    a.supernet_of b ∨ b.supernet_of a := by
  have hea := broadcast_eq ha
  have heb := broadcast_eq hb
  have hka : 1 ≤ 2 ^ (32 - a.prefixlen) := Nat.one_le_two_pow
  have hkb : 1 ≤ 2 ^ (32 - b.prefixlen) := Nat.one_le_two_pow
  have hdva : 2 ^ (32 - a.prefixlen) ∣ a.network_address :=
    Nat.dvd_of_mod_eq_zero ha.2.2
  have hdvb : 2 ^ (32 - b.prefixlen) ∣ b.network_address :=
    Nat.dvd_of_mod_eq_zero hb.2.2
  rcases Nat.le_total (32 - b.prefixlen) (32 - a.prefixlen) with hcase | hcase
  · -- block b is at most as large as block a, so a contains b
    left
    refine ⟨hab, ?_⟩
    rw [hea, heb]
    have hdd : 2 ^ (32 - b.prefixlen) ∣ 2 ^ (32 - a.prefixlen) :=
      Nat.pow_dvd_pow 2 hcase
    have hdr : 2 ^ (32 - b.prefixlen) ∣ b.network_address - a.network_address :=
      Nat.dvd_sub' hdvb (Nat.dvd_trans hdd hdva)
    obtain ⟨t, ht⟩ := hdr
    have hba : b.network_address = a.network_address + 2 ^ (32 - b.prefixlen) * t := by
      omega
    have hsplit : 2 ^ (32 - a.prefixlen) =
        2 ^ (32 - b.prefixlen) * 2 ^ ((32 - a.prefixlen) - (32 - b.prefixlen)) := by
      rw [← Nat.pow_add]
      congr 1
      omega
    have htlt : t < 2 ^ ((32 - a.prefixlen) - (32 - b.prefixlen)) := by
      apply Nat.lt_of_mul_lt_mul_left (a := 2 ^ (32 - b.prefixlen))
      rw [hea] at hov
      omega
    have hstep : 2 ^ (32 - b.prefixlen) * (t + 1) ≤
        2 ^ (32 - b.prefixlen) * 2 ^ ((32 - a.prefixlen) - (32 - b.prefixlen)) :=
      Nat.mul_le_mul_left _ (by omega)
    rw [Nat.mul_succ] at hstep
    omega
  · -- block a is at most as large as block b; the starts must then agree
    right
    have hdd : 2 ^ (32 - a.prefixlen) ∣ 2 ^ (32 - b.prefixlen) :=
      Nat.pow_dvd_pow 2 hcase
    have hdr : 2 ^ (32 - a.prefixlen) ∣ b.network_address - a.network_address :=
      Nat.dvd_sub' (Nat.dvd_trans hdd hdvb) hdva
    have hlt : b.network_address - a.network_address < 2 ^ (32 - a.prefixlen) := by
      rw [hea] at hov
      omega
    have hz : b.network_address - a.network_address = 0 :=
      Nat.eq_zero_of_dvd_of_lt hdr hlt
    have hBA : b.network_address = a.network_address := by omega
    refine ⟨Nat.le_of_eq hBA, ?_⟩
    rw [hea, heb, hBA]
    have hmono : 2 ^ (32 - a.prefixlen) ≤ 2 ^ (32 - b.prefixlen) :=
      Nat.pow_le_pow_right (by omega) hcase
    omega

/-! ### Every parsed network is canonical -/

theorem parse_octet_le {s : List Char} {v : Nat} (h : parse_octet s = some v) :
    v ≤ 255 := by
  simp only [parse_octet] at h
  split at h
  · exact absurd h (by simp)
  split at h
  · exact absurd h (by simp)
  split at h
  · exact absurd h (by simp)
  split at h
  · exact absurd h (by simp)
  split at h
  · exact absurd h (by simp)
  · rename_i hle
    simp only [Option.some.injEq] at h
    omega

theorem ip_int_from_chars_lt {s : List Char} {ip : Nat}
    (h : ip_int_from_chars s = some ip) : ip < 2 ^ 32 := by
  simp only [ip_int_from_chars] at h
  split at h
  · exact absurd h (by simp)
  split at h
  · rename_i a b c d
    split at h
    · rename_i oa ob oc od ha hb hc hd
      simp only [Option.some.injEq] at h
      have h1 := parse_octet_le ha
      have h2 := parse_octet_le hb
      have h3 := parse_octet_le hc
      have h4 := parse_octet_le hd
      omega
    · exact absurd h (by simp)
  · exact absurd h (by simp)

theorem prefixlenFromDigits_le {s : List Char} {p : Nat}
    (h : prefixlenFromDigits s = some p) : p ≤ 32 := by
  simp only [prefixlenFromDigits] at h
  split at h
  · split at h
    · simp only [Option.some.injEq] at h
      omega
    · exact absurd h (by simp)
  · exact absurd h (by simp)

theorem prefixlenFromIpInt_le {ip p : Nat} (h : prefixlenFromIpInt ip = some p) :
    p ≤ 32 := by
  simp only [prefixlenFromIpInt] at h
  split at h
  · simp only [Option.some.injEq] at h
    omega
  · exact absurd h (by simp)

theorem make_netmask_le {s : List Char} {p : Nat} (h : make_netmask s = some p) :
    p ≤ 32 := by
  simp only [make_netmask] at h
  split at h
  · rename_i q hq
    simp only [Option.some.injEq] at h
    subst h
    exact prefixlenFromDigits_le hq
  · simp only [prefixlenFromIpChars] at h
    split at h
    · exact absurd h (by simp)
    · split at h
      · rename_i q hq
        simp only [Option.some.injEq] at h
        subst h
        exact prefixlenFromIpInt_le hq
      · exact prefixlenFromIpInt_le h

/-- Masking an address below `2 ^ 32` with the netmask of a prefix length
at most 32 yields a canonical block: this is why every network built by
`IPv4Network(_, strict=False)` is canonical. -/
theorem masked_canonical {ip p : Nat} (hp : p ≤ 32) (hip : ip < 2 ^ 32) :
    Canonical { network_address := ip &&& netmaskOf p, prefixlen := p } := by
  refine ⟨hp, ?_, ?_⟩
  · show ip &&& netmaskOf p < 2 ^ 32
    have h1 : ip &&& netmaskOf p ≤ ip := Nat.and_le_left
    omega
  · show (ip &&& netmaskOf p) % 2 ^ (32 - p) = 0
    rw [land_netmask p ip hp hip]
    exact Nat.mul_mod_right _ _

theorem ipv4NetworkOfChars_canonical {s : List Char} {n : IPv4Network}
    (h : ipv4NetworkOfChars s = some n) : Canonical n := by
  simp only [ipv4NetworkOfChars] at h
  split at h
  · split at h
    · rename_i addr ip hip
      simp only [Option.some.injEq] at h
      subst h
      exact masked_canonical (by omega) (ip_int_from_chars_lt hip)
    · exact absurd h (by simp)
  · split at h
    · rename_i addr mask ip p hip hmask
      simp only [Option.some.injEq] at h
      subst h
      exact masked_canonical (make_netmask_le hmask) (ip_int_from_chars_lt hip)
    · exact absurd h (by simp)
  · exact absurd h (by simp)

theorem parseNetworkToken_canonical {t : List Char} {n : IPv4Network}
    (h : parseNetworkToken t = some n) : Canonical n :=
  ipv4NetworkOfChars_canonical h

/-! ### The merge loop: invariants of the single forward pass -/

/-- Output ordering relation: the whole range of `a` lies strictly below
the whole range of `b`. -/
def BlocksDisjointBelow (a b : IPv4Network) : Prop :=
  a.broadcast_address < b.network_address

theorem consolidateLoop_cons_drop {c n : IPv4Network} (rest : List IPv4Network)
    (h : c.supernet_of n) :
    consolidateLoop c (n :: rest) = consolidateLoop c rest := by
  simp only [consolidateLoop, if_pos h]

theorem consolidateLoop_cons_replace {c n : IPv4Network} (rest : List IPv4Network)
    (h1 : ¬ c.supernet_of n) (h2 : n.supernet_of c) :
    consolidateLoop c (n :: rest) = consolidateLoop n rest := by
  simp only [consolidateLoop, if_neg h1, if_pos h2]

theorem consolidateLoop_cons_emit {c n : IPv4Network} (rest : List IPv4Network)
    (h1 : ¬ c.supernet_of n) (h2 : ¬ n.supernet_of c)
    (h3 : ¬ (c.network_address ≤ n.broadcast_address ∧
      n.network_address ≤ c.broadcast_address)) :
    consolidateLoop c (n :: rest) = c :: consolidateLoop n rest := by
  simp only [consolidateLoop, if_neg h1, if_neg h2, if_neg h3]

/-- Invariants of the merge pass on a sorted list of canonical blocks:
every output element is the current block or one of the input blocks, the
output is strictly ordered with disjoint ranges, every input block is
contained in some output block, and every output block starts no earlier
than the current block. -/
theorem consolidateLoop_spec (l : List IPv4Network) :
    ∀ c : IPv4Network, Canonical c → (∀ x ∈ l, Canonical x) →
    l.Pairwise netLE →
    (∀ x ∈ l, c.network_address ≤ x.network_address) →
    (∀ e ∈ consolidateLoop c l, e = c ∨ e ∈ l) ∧
    (consolidateLoop c l).Pairwise BlocksDisjointBelow ∧
    (∀ x, (x = c ∨ x ∈ l) → ∃ e ∈ consolidateLoop c l, e.supernet_of x) ∧
    (∀ e ∈ consolidateLoop c l, c.network_address ≤ e.network_address) := by
  induction l with
  | nil =>
    intro c hc _ _ _
    refine ⟨?_, ?_, ?_, ?_⟩
    · intro e he
      simp only [consolidateLoop, List.mem_singleton] at he
      exact Or.inl he
    · simp [consolidateLoop]
    · intro x hx
      rcases hx with h | h
      · exact ⟨c, by simp [consolidateLoop], h ▸ supernet_refl c⟩
      · exact absurd h (List.not_mem_nil x)
    · intro e he
      simp only [consolidateLoop, List.mem_singleton] at he
      subst he
      exact Nat.le_refl _
  | cons n rest ih =>
    intro c hc hcanon hsorted hcle
    have hn : Canonical n := hcanon n (by simp)
    have hrest : ∀ x ∈ rest, Canonical x := fun x hx => hcanon x (by simp [hx])
    have hsorted2 : rest.Pairwise netLE := (List.pairwise_cons.mp hsorted).2
    have hnle : ∀ x ∈ rest, n.network_address ≤ x.network_address :=
      fun x hx => (List.pairwise_cons.mp hsorted).1 x hx
    have hcn : c.network_address ≤ n.network_address := hcle n (by simp)
    by_cases h1 : c.supernet_of n
    · rw [consolidateLoop_cons_drop rest h1]
      obtain ⟨A, B, C, D⟩ := ih c hc hrest hsorted2 (fun x hx => hcle x (by simp [hx]))
      refine ⟨fun e he => ?_, B, fun x hx => ?_, D⟩
      · rcases A e he with h | h
        · exact Or.inl h
        · exact Or.inr (by simp [h])
      · rcases hx with h | h
        · exact C x (Or.inl h)
        · rcases (by simpa using h : x = n ∨ x ∈ rest) with h3 | h3
          · obtain ⟨e, he, hsup⟩ := C c (Or.inl rfl)
            exact ⟨e, he, supernet_trans hsup (h3 ▸ h1)⟩
          · exact C x (Or.inr h3)
    · by_cases h2 : n.supernet_of c
      · rw [consolidateLoop_cons_replace rest h1 h2]
        obtain ⟨A, B, C, D⟩ := ih n hn hrest hsorted2 hnle
        have hnc : n.network_address = c.network_address :=
          Nat.le_antisymm h2.1 hcn
        refine ⟨fun e he => ?_, B, fun x hx => ?_, fun e he => ?_⟩
        · rcases A e he with h | h
          · exact Or.inr (by simp [h])
          · exact Or.inr (by simp [h])
        · rcases hx with h | h
          · obtain ⟨e, he, hsup⟩ := C n (Or.inl rfl)
            exact ⟨e, he, supernet_trans hsup (h ▸ h2)⟩
          · rcases (by simpa using h : x = n ∨ x ∈ rest) with h3 | h3
            · subst h3
              exact C x (Or.inl rfl)
            · exact C x (Or.inr h3)
        · have := D e he
          omega
      · have hdis : ¬ (c.network_address ≤ n.broadcast_address ∧
            n.network_address ≤ c.broadcast_address) := by
          intro hov
          rcases cidr_laminar hc hn hcn hov.2 with h | h
          · exact h1 h
          · exact h2 h
        have hlt : c.broadcast_address < n.network_address := by
          have hsb : n.network_address ≤ n.broadcast_address := start_le_broadcast hn
          by_cases hA : c.network_address ≤ n.broadcast_address
          · have hB : ¬ n.network_address ≤ c.broadcast_address :=
              fun hB => hdis ⟨hA, hB⟩
            omega
          · omega
        rw [consolidateLoop_cons_emit rest h1 h2 hdis]
        obtain ⟨A, B, C, D⟩ := ih n hn hrest hsorted2 hnle
        refine ⟨fun e he => ?_, ?_, fun x hx => ?_, fun e he => ?_⟩
        · rcases (by simpa using he : e = c ∨ e ∈ consolidateLoop n rest) with h | h
          · exact Or.inl h
          · rcases A e h with h3 | h3
            · exact Or.inr (by simp [h3])
            · exact Or.inr (by simp [h3])
        · rw [List.pairwise_cons]
          refine ⟨fun e he => ?_, B⟩
          have hge := D e he
          show c.broadcast_address < e.network_address
          omega
        · rcases hx with h | h
          · exact ⟨c, by simp, h ▸ supernet_refl c⟩
          · rcases (by simpa using h : x = n ∨ x ∈ rest) with h3 | h3
            · subst h3
              obtain ⟨e, he, hsup⟩ := C x (Or.inl rfl)
              exact ⟨e, by simp [he], hsup⟩
            · obtain ⟨e, he, hsup⟩ := C x (Or.inr h3)
              exact ⟨e, by simp [he], hsup⟩
        · rcases (by simpa using he : e = c ∨ e ∈ consolidateLoop n rest) with h | h
          · subst h
            exact Nat.le_refl _
          · have := D e h
            omega

/-! ### Characterization of the consolidated output -/

theorem mem_parsed_canonical {ip_list : List (List Char)} {x : IPv4Network}
    (hx : x ∈ ip_list.filterMap parseNetworkToken) : Canonical x := by
  obtain ⟨t, _, ht⟩ := List.mem_filterMap.mp hx
  exact parseNetworkToken_canonical ht

/-- The three top-level invariants of `consolidate_networks`, obtained by
applying the loop invariants to the sorted parsed list: every output block
is a parsed input block, the output is strictly ordered with pairwise
disjoint ranges, and every parsed input block is contained in some output
block. -/
theorem consolidate_networks_spec (ip_list : List (List Char)) :
    (∀ e ∈ consolidate_networks ip_list, e ∈ ip_list.filterMap parseNetworkToken) ∧
    (consolidate_networks ip_list).Pairwise BlocksDisjointBelow ∧
    (∀ x ∈ ip_list.filterMap parseNetworkToken,
      ∃ e ∈ consolidate_networks ip_list, e.supernet_of x) := by
  have hperm := List.perm_insertionSort netLE (ip_list.filterMap parseNetworkToken)
  have hsorted := List.sorted_insertionSort netLE (ip_list.filterMap parseNetworkToken)
  rcases hs : List.insertionSort netLE (ip_list.filterMap parseNetworkToken)
    with _ | ⟨c, rest⟩
  · have hnil : ip_list.filterMap parseNetworkToken = [] := by
      rw [hs] at hperm
      exact (hperm.symm).eq_nil
    have hout : consolidate_networks ip_list = [] := by
      unfold consolidate_networks
      rw [hs]
    rw [hout, hnil]
    simp
  · rw [hs] at hperm hsorted
    have hmem : ∀ y, y ∈ c :: rest → y ∈ ip_list.filterMap parseNetworkToken :=
      fun y hy => hperm.mem_iff.mp hy
    have hcanonc : Canonical c := mem_parsed_canonical (hmem c (by simp))
    have hcanonrest : ∀ x ∈ rest, Canonical x :=
      fun x hx => mem_parsed_canonical (hmem x (by simp [hx]))
    have hpw := List.sorted_cons.mp hsorted
    have hout : consolidate_networks ip_list = consolidateLoop c rest := by
      unfold consolidate_networks
      rw [hs]
    obtain ⟨A, B, C, D⟩ := consolidateLoop_spec rest c hcanonc hcanonrest hpw.2 hpw.1
    rw [hout]
    refine ⟨fun e he => ?_, B, fun x hx => ?_⟩
    · rcases A e he with h | h
      · exact hmem e (by simp [h])
      · exact hmem e (by simp [h])
    · rcases (by simpa using hperm.symm.mem_iff.mp hx : x = c ∨ x ∈ rest) with h | h
      · exact C x (Or.inl h)
      · exact C x (Or.inr h)

theorem consolidate_networks_canonical {ip_list : List (List Char)} {e : IPv4Network}
    (he : e ∈ consolidate_networks ip_list) : Canonical e :=
  mem_parsed_canonical ((consolidate_networks_spec ip_list).1 e he)

/-- Two distinct members of a pairwise-related list are related one way or
the other. -/
theorem pairwise_mem_two_sided {R : IPv4Network → IPv4Network → Prop}
    {l : List IPv4Network} (hl : l.Pairwise R) {a b : IPv4Network}
    (ha : a ∈ l) (hb : b ∈ l) (hne : a ≠ b) : R a b ∨ R b a := by
  have hl2 : l.Pairwise (fun x y => R x y ∨ R y x) := hl.imp (fun h => Or.inl h)
  have hsymm : Symmetric (fun x y : IPv4Network => R x y ∨ R y x) :=
    fun x y h => h.symm
  exact hl2.forall hsymm ha hb hne

/-- The output blocks have strictly increasing network addresses. -/
theorem consolidate_networks_pairwise_lt (ip_list : List (List Char)) :
    (consolidate_networks ip_list).Pairwise
      (fun a b => a.network_address < b.network_address) := by
  obtain ⟨A, B, _⟩ := consolidate_networks_spec ip_list
  refine B.imp_of_mem ?_
  intro a b ha hb hr
  have hc : Canonical a := consolidate_networks_canonical ha
  have h1 : a.network_address ≤ a.broadcast_address := start_le_broadcast hc
  have h2 : a.broadcast_address < b.network_address := hr
  omega

/-- Membership in the consolidated output is exactly membership among the
containment-maximal parsed blocks. -/
theorem consolidate_networks_mem_iff (ip_list : List (List Char)) (x : IPv4Network) :
    x ∈ consolidate_networks ip_list ↔
      x ∈ ip_list.filterMap parseNetworkToken ∧
        ∀ y ∈ ip_list.filterMap parseNetworkToken, y.supernet_of x → y = x := by
  obtain ⟨A, B, C⟩ := consolidate_networks_spec ip_list
  constructor
  · intro hx
    have hcx : Canonical x := consolidate_networks_canonical hx
    refine ⟨A x hx, fun y hy hsup => ?_⟩
    obtain ⟨e, he, hey⟩ := C y hy
    have hex : e.supernet_of x := supernet_trans hey hsup
    have hexeq : e = x := by
      by_contra hne
      have hce : Canonical e := consolidate_networks_canonical he
      rcases pairwise_mem_two_sided B he hx hne with h | h
      · have h1 := hex.1
        have h2 := hex.2
        have h3 : x.network_address ≤ x.broadcast_address := start_le_broadcast hcx
        have h4 : e.broadcast_address < x.network_address := h
        omega
      · have h1 := hex.1
        have h2 := hex.2
        have h3 : x.network_address ≤ x.broadcast_address := start_le_broadcast hcx
        have h4 : x.broadcast_address < e.network_address := h
        omega
    subst hexeq
    exact supernet_antisymm (mem_parsed_canonical hy) hcx hsup hey
      |>.symm ▸ rfl
  · rintro ⟨hx, hmax⟩
    obtain ⟨e, he, hsup⟩ := C x hx
    have heq : e = x := hmax e (A e he) hsup
    rw [← heq]
    exact he

/-- Two lists with strictly increasing network addresses and the same
members are equal. -/
theorem strictSorted_eq_of_mem_iff :
    ∀ (l1 l2 : List IPv4Network),
    l1.Pairwise (fun a b => a.network_address < b.network_address) →
    l2.Pairwise (fun a b => a.network_address < b.network_address) →
    (∀ x, x ∈ l1 ↔ x ∈ l2) → l1 = l2 := by
  intro l1
  induction l1 with
  | nil =>
    intro l2 _ _ hiff
    cases l2 with
    | nil => rfl
    | cons b l2 => exact absurd ((hiff b).mpr (by simp)) (List.not_mem_nil b)
  | cons a l1 ih =>
    intro l2 h1 h2 hiff
    cases l2 with
    | nil => exact absurd ((hiff a).mp (by simp)) (List.not_mem_nil a)
    | cons b l2 =>
      have hab : a = b := by
        by_contra hne
        have ha2 : a ∈ l2 := by
          rcases List.mem_cons.mp ((hiff a).mp (by simp)) with h | h
          · exact absurd h hne
          · exact h
        have hb1 : b ∈ l1 := by
          rcases List.mem_cons.mp ((hiff b).mpr (by simp)) with h | h
          · exact absurd h.symm hne
          · exact h
        have hlt1 : b.network_address < a.network_address :=
          (List.pairwise_cons.mp h2).1 a ha2
        have hlt2 : a.network_address < b.network_address :=
          (List.pairwise_cons.mp h1).1 b hb1
        omega
      subst hab
      congr 1
      apply ih l2 (List.pairwise_cons.mp h1).2 (List.pairwise_cons.mp h2).2
      intro x
      constructor
      · intro hx
        rcases List.mem_cons.mp ((hiff x).mp (by simp [hx])) with h | h
        · subst h
          have := (List.pairwise_cons.mp h1).1 x hx
          omega
        · exact h
      · intro hx
        rcases List.mem_cons.mp ((hiff x).mpr (by simp [hx])) with h | h
        · subst h
          have := (List.pairwise_cons.mp h2).1 x hx
          omega
        · exact h

/-! ### The formatter inverts the parser on canonical blocks -/

theorem splitOnChar_ne_nil (sep : Char) (l : List Char) : splitOnChar sep l ≠ [] := by
  induction l with
  | nil => simp [splitOnChar]
  | cons c cs ih =>
    simp only [splitOnChar]
    split
    · simp
    · split
      · simp
      · simp

theorem splitOnChar_of_not_mem {sep : Char} {l : List Char} (h : sep ∉ l) :
    splitOnChar sep l = [l] := by
  induction l with
  | nil => rfl
  | cons c cs ih =>
    have hc : c ≠ sep := fun he => h (by simp [he])
    have hcs : sep ∉ cs := fun he => h (by simp [he])
    simp only [splitOnChar, if_neg hc, ih hcs]

theorem splitOnChar_append {sep : Char} {l1 : List Char} (l2 : List Char)
    (h : sep ∉ l1) :
    splitOnChar sep (l1 ++ sep :: l2) = l1 :: splitOnChar sep l2 := by
  induction l1 with
  | nil => simp [splitOnChar]
  | cons c cs ih =>
    have hc : c ≠ sep := fun he => h (by simp [he])
    have hcs : sep ∉ cs := fun he => h (by simp [he])
    simp only [List.cons_append, splitOnChar, if_neg hc, List.append_eq]
    rw [ih hcs]

theorem dropWhile_eq_self_of_forall {p : Char → Bool} {l : List Char}
    (h : ∀ c ∈ l, p c = false) : l.dropWhile p = l := by
  cases l with
  | nil => rfl
  | cons c cs => simp [List.dropWhile, h c (by simp)]

theorem pyStrip_eq_self {l : List Char} (h : ∀ c ∈ l, isPySpace c = false) :
    pyStrip l = l := by
  unfold pyStrip
  rw [dropWhile_eq_self_of_forall h,
    dropWhile_eq_self_of_forall (fun c hc => h c (List.mem_reverse.mp hc)),
    List.reverse_reverse]

theorem isAsciiDigit_char_ne {c d : Char} (h : isAsciiDigit c = true)
    (hd : isAsciiDigit d = false) : c ≠ d := fun he => by
  rw [he, hd] at h
  exact Bool.false_ne_true h

theorem digit_not_pySpace {c : Char} (h : isAsciiDigit c = true) :
    isPySpace c = false := by
  have h1 : c ≠ ' ' := isAsciiDigit_char_ne h (by decide)
  have h2 : c ≠ '\t' := isAsciiDigit_char_ne h (by decide)
  have h3 : c ≠ '\n' := isAsciiDigit_char_ne h (by decide)
  have h4 : c ≠ '\x0b' := isAsciiDigit_char_ne h (by decide)
  have h5 : c ≠ '\x0c' := isAsciiDigit_char_ne h (by decide)
  have h6 : c ≠ '\r' := isAsciiDigit_char_ne h (by decide)
  simp [isPySpace, h1, h2, h3, h4, h5, h6]

set_option maxRecDepth 8000 in
theorem natChars_all_digits : ∀ v, v < 256 → (natChars v).all isAsciiDigit = true := by
  decide

set_option maxRecDepth 8000 in
theorem parse_octet_natChars : ∀ v, v < 256 → parse_octet (natChars v) = some v := by
  decide

set_option maxRecDepth 8000 in
theorem prefixlenFromDigits_natChars :
    ∀ p, p < 33 → prefixlenFromDigits (natChars p) = some p := by
  decide

theorem natChars_mem_digit {v : Nat} (hv : v < 256) {c : Char}
    (hc : c ∈ natChars v) : isAsciiDigit c = true :=
  List.all_eq_true.mp (natChars_all_digits v hv) c hc

theorem natChars_ne_nil (v : Nat) : natChars v ≠ [] := by
  unfold natChars
  split
  · simp
  · split
    · simp
    · simp

theorem make_netmask_natChars {p : Nat} (hp : p ≤ 32) :
    make_netmask (natChars p) = some p := by
  unfold make_netmask
  rw [prefixlenFromDigits_natChars p (by omega)]

theorem format_network_parts (n : IPv4Network) :
    format_network n =
      (natChars (n.network_address / 2 ^ 24 % 256) ++
        ('.' :: (natChars (n.network_address / 2 ^ 16 % 256) ++
          ('.' :: (natChars (n.network_address / 2 ^ 8 % 256) ++
            ('.' :: natChars (n.network_address % 256))))))) ++
      ('/' :: natChars n.prefixlen) := by
  simp [format_network, List.append_assoc]

theorem slash_not_mem_natChars {v : Nat} (hv : v < 256) : '/' ∉ natChars v :=
  fun hmem => absurd (natChars_mem_digit hv hmem) (by decide)

theorem dot_not_mem_natChars {v : Nat} (hv : v < 256) : '.' ∉ natChars v :=
  fun hmem => absurd (natChars_mem_digit hv hmem) (by decide)

/-- Parsing the formatted text of a canonical network recovers the
network: the round trip through the output file format is the identity on
canonical blocks. -/
theorem parse_format {n : IPv4Network} (h : Canonical n) :
    parseNetworkToken (format_network n) = some n := by
  obtain ⟨hp, hx, hm⟩ := h
  have hb1 : n.network_address / 2 ^ 24 % 256 < 256 := Nat.mod_lt _ (by omega)
  have hb2 : n.network_address / 2 ^ 16 % 256 < 256 := Nat.mod_lt _ (by omega)
  have hb3 : n.network_address / 2 ^ 8 % 256 < 256 := Nat.mod_lt _ (by omega)
  have hb4 : n.network_address % 256 < 256 := Nat.mod_lt _ (by omega)
  have hbp : n.prefixlen < 256 := by omega
  have hnospace : ∀ c ∈ format_network n, isPySpace c = false := by
    intro c hc
    rw [format_network_parts] at hc
    simp only [List.mem_append, List.mem_cons] at hc
    rcases hc with (hc | hc | hc | hc | hc | hc | hc) | (hc | hc)
    · exact digit_not_pySpace (natChars_mem_digit hb1 hc)
    · subst hc
      decide
    · exact digit_not_pySpace (natChars_mem_digit hb2 hc)
    · subst hc
      decide
    · exact digit_not_pySpace (natChars_mem_digit hb3 hc)
    · subst hc
      decide
    · exact digit_not_pySpace (natChars_mem_digit hb4 hc)
    · subst hc
      decide
    · exact digit_not_pySpace (natChars_mem_digit hbp hc)
  have hcont : (format_network n).contains '/' = true := by
    apply List.elem_iff.mpr
    rw [format_network_parts]
    simp
  have hslashA : '/' ∉ (natChars (n.network_address / 2 ^ 24 % 256) ++
      ('.' :: (natChars (n.network_address / 2 ^ 16 % 256) ++
        ('.' :: (natChars (n.network_address / 2 ^ 8 % 256) ++
          ('.' :: natChars (n.network_address % 256))))))) := by
    intro hmem
    simp only [List.mem_append, List.mem_cons] at hmem
    rcases hmem with hc | hc | hc | hc | hc | hc | hc
    · exact slash_not_mem_natChars hb1 hc
    · exact absurd hc (by decide)
    · exact slash_not_mem_natChars hb2 hc
    · exact absurd hc (by decide)
    · exact slash_not_mem_natChars hb3 hc
    · exact absurd hc (by decide)
    · exact slash_not_mem_natChars hb4 hc
  have hipint : ip_int_from_chars
      (natChars (n.network_address / 2 ^ 24 % 256) ++
        ('.' :: (natChars (n.network_address / 2 ^ 16 % 256) ++
          ('.' :: (natChars (n.network_address / 2 ^ 8 % 256) ++
            ('.' :: natChars (n.network_address % 256))))))) =
      some n.network_address := by
    have hne : (natChars (n.network_address / 2 ^ 24 % 256) ++
        ('.' :: (natChars (n.network_address / 2 ^ 16 % 256) ++
          ('.' :: (natChars (n.network_address / 2 ^ 8 % 256) ++
            ('.' :: natChars (n.network_address % 256))))))) ≠ [] := by
      simp [List.append_eq_nil]
    unfold ip_int_from_chars
    rw [if_neg hne, splitOnChar_append _ (dot_not_mem_natChars hb1),
      splitOnChar_append _ (dot_not_mem_natChars hb2),
      splitOnChar_append _ (dot_not_mem_natChars hb3),
      splitOnChar_of_not_mem (dot_not_mem_natChars hb4)]
    simp only [parse_octet_natChars _ hb1, parse_octet_natChars _ hb2,
      parse_octet_natChars _ hb3, parse_octet_natChars _ hb4]
    congr 1
    omega
  have hmask : n.network_address &&& netmaskOf n.prefixlen = n.network_address := by
    rw [land_netmask _ _ hp hx]
    have hdm := Nat.div_add_mod n.network_address (2 ^ (32 - n.prefixlen))
    omega
  unfold parseNetworkToken
  rw [if_pos hcont, pyStrip_eq_self hnospace, format_network_parts]
  have hsplit1 : splitOnChar '/'
      ((natChars (n.network_address / 2 ^ 24 % 256) ++
        ('.' :: (natChars (n.network_address / 2 ^ 16 % 256) ++
          ('.' :: (natChars (n.network_address / 2 ^ 8 % 256) ++
            ('.' :: natChars (n.network_address % 256))))))) ++
        ('/' :: natChars n.prefixlen)) =
      [natChars (n.network_address / 2 ^ 24 % 256) ++
        ('.' :: (natChars (n.network_address / 2 ^ 16 % 256) ++
          ('.' :: (natChars (n.network_address / 2 ^ 8 % 256) ++
            ('.' :: natChars (n.network_address % 256)))))),
        natChars n.prefixlen] := by
    rw [splitOnChar_append _ hslashA,
      splitOnChar_of_not_mem (slash_not_mem_natChars hbp)]
  simp only [ipv4NetworkOfChars, hsplit1, hipint, make_netmask_natChars hp, hmask]

/-! ### Idempotence support -/

theorem consolidate_networks_def (ip_list : List (List Char)) :
    consolidate_networks ip_list =
      match List.insertionSort netLE (ip_list.filterMap parseNetworkToken) with
      | [] => []
      | current :: rest => consolidateLoop current rest := rfl

theorem filterMap_id_of_forall {f : IPv4Network → Option IPv4Network} :
    ∀ {l : List IPv4Network}, (∀ x ∈ l, f x = some x) → l.filterMap f = l := by
  intro l
  induction l with
  | nil => intro _; rfl
  | cons a as ih =>
    intro h
    have h1 := h a (by simp)
    have h2 := ih (fun x hx => h x (by simp [hx]))
    simp [List.filterMap_cons, h1, h2]

/-- On a list whose consecutive members are already strictly separated the
merge pass is the identity: every step takes the disjoint branch. -/
theorem consolidateLoop_of_disjoint :
    ∀ (l : List IPv4Network) (c : IPv4Network), Canonical c →
    (∀ x ∈ l, Canonical x) → (c :: l).Pairwise BlocksDisjointBelow →
    consolidateLoop c l = c :: l := by
  intro l
  induction l with
  | nil =>
    intro c _ _ _
    simp [consolidateLoop]
  | cons n rest ih =>
    intro c hc hcanon hpw
    have hcn : BlocksDisjointBelow c n := (List.pairwise_cons.mp hpw).1 n (by simp)
    have hn : Canonical n := hcanon n (by simp)
    have hlt : c.broadcast_address < n.network_address := hcn
    have hsc := start_le_broadcast hc
    have hsn := start_le_broadcast hn
    have h1 : ¬ c.supernet_of n := by
      intro hs
      have := hs.2
      omega
    have h2 : ¬ n.supernet_of c := by
      intro hs
      have := hs.1
      omega
    have h3 : ¬ (c.network_address ≤ n.broadcast_address ∧
        n.network_address ≤ c.broadcast_address) := by
      intro hov
      have := hov.2
      omega
    rw [consolidateLoop_cons_emit rest h1 h2 h3]
    congr 1
    exact ih n hn (fun x hx => hcanon x (by simp [hx]))
      (List.pairwise_cons.mp hpw).2

/-! ### Tokens containing a colon never parse -/

theorem mem_dropWhile_of_mem {p : Char → Bool} {c : Char} (hc : p c = false) :
    ∀ {l : List Char}, c ∈ l → c ∈ l.dropWhile p := by
  intro l
  induction l with
  | nil => intro h; exact absurd h (List.not_mem_nil c)
  | cons a as ih =>
    intro h
    by_cases hpa : p a = true
    · rw [List.dropWhile_cons_of_pos hpa]
      rcases List.mem_cons.mp h with h1 | h1
      · subst h1
        rw [hc] at hpa
        exact absurd hpa (by simp)
      · exact ih h1
    · rw [List.dropWhile_cons_of_neg hpa]
      exact h

theorem mem_pyStrip {c : Char} (hc : isPySpace c = false) {l : List Char}
    (h : c ∈ l) : c ∈ pyStrip l := by
  unfold pyStrip
  rw [List.mem_reverse]
  exact mem_dropWhile_of_mem hc (List.mem_reverse.mpr (mem_dropWhile_of_mem hc h))

theorem mem_splitOnChar (c sep : Char) (hne : c ≠ sep) :
    ∀ {l : List Char}, c ∈ l → ∃ part ∈ splitOnChar sep l, c ∈ part := by
  intro l
  induction l with
  | nil => intro h; exact absurd h (List.not_mem_nil c)
  | cons a as ih =>
    intro h
    by_cases ha : a = sep
    · subst ha
      have hc : c ∈ as := by
        rcases List.mem_cons.mp h with h1 | h1
        · exact absurd h1 hne
        · exact h1
      obtain ⟨part, hp, hcp⟩ := ih hc
      refine ⟨part, ?_, hcp⟩
      simp only [splitOnChar, if_pos rfl]
      simp [hp]
    · rcases hsp : splitOnChar sep as with _ | ⟨g, gs⟩
      · exact absurd hsp (splitOnChar_ne_nil sep as)
      · rcases List.mem_cons.mp h with h1 | h1
        · subst h1
          exact ⟨c :: g, by simp [splitOnChar, if_neg ha, hsp], by simp⟩
        · obtain ⟨part, hp, hcp⟩ := ih h1
          rw [hsp] at hp
          rcases List.mem_cons.mp hp with h2 | h2
          · subst h2
            exact ⟨a :: part, by simp [splitOnChar, if_neg ha, hsp], by simp [hcp]⟩
          · exact ⟨part, by simp [splitOnChar, if_neg ha, hsp, h2], hcp⟩

theorem parse_octet_colon {s : List Char} (h : ':' ∈ s) : parse_octet s = none := by
  have hne : s ≠ [] := by
    intro he
    subst he
    exact absurd h (List.not_mem_nil _)
  have hall : s.all isAsciiDigit = false := by
    rw [Bool.eq_false_iff]
    intro hall
    exact absurd (List.all_eq_true.mp hall ':' h) (by decide)
  simp [parse_octet, hne, hall]

theorem ip_int_from_chars_colon {s : List Char} (h : ':' ∈ s) :
    ip_int_from_chars s = none := by
  have hne : s ≠ [] := by
    intro he
    subst he
    exact absurd h (List.not_mem_nil _)
  obtain ⟨part, hpart, hcp⟩ := mem_splitOnChar ':' '.' (by decide) h
  unfold ip_int_from_chars
  rw [if_neg hne]
  split
  · rename_i a b c d hsp
    rw [hsp] at hpart
    simp only [List.mem_cons, List.not_mem_nil, or_false] at hpart
    rcases hpart with h1 | h1 | h1 | h1
    · rw [parse_octet_colon (h1 ▸ hcp)]
    · rcases parse_octet a with _ | oa
      · rfl
      · rw [parse_octet_colon (h1 ▸ hcp)]
    · rcases parse_octet a with _ | oa
      · rfl
      · rcases parse_octet b with _ | ob
        · rfl
        · rw [parse_octet_colon (h1 ▸ hcp)]
    · rcases parse_octet a with _ | oa
      · rfl
      · rcases parse_octet b with _ | ob
        · rfl
        · rcases parse_octet c with _ | oc
          · rfl
          · rw [parse_octet_colon (h1 ▸ hcp)]
  · rfl

theorem make_netmask_colon {s : List Char} (h : ':' ∈ s) : make_netmask s = none := by
  have hdig : prefixlenFromDigits s = none := by
    have hall : s.all isAsciiDigit = false := by
      rw [Bool.eq_false_iff]
      intro hall
      exact absurd (List.all_eq_true.mp hall ':' h) (by decide)
    simp [prefixlenFromDigits, hall]
  have hip : prefixlenFromIpChars s = none := by
    simp [prefixlenFromIpChars, ip_int_from_chars_colon h]
  simp [make_netmask, hdig, hip]

theorem ipv4NetworkOfChars_colon {s : List Char} (h : ':' ∈ s) :
    ipv4NetworkOfChars s = none := by
  obtain ⟨part, hpart, hcp⟩ := mem_splitOnChar ':' '/' (by decide) h
  unfold ipv4NetworkOfChars
  split
  · rename_i addr hsp
    rw [hsp] at hpart
    simp only [List.mem_cons, List.not_mem_nil, or_false] at hpart
    rw [ip_int_from_chars_colon (hpart ▸ hcp)]
  · rename_i addr mask hsp
    rw [hsp] at hpart
    simp only [List.mem_cons, List.not_mem_nil, or_false] at hpart
    rcases hpart with h1 | h1
    · rw [ip_int_from_chars_colon (h1 ▸ hcp)]
    · rcases ip_int_from_chars addr with _ | ip
      · rw [make_netmask_colon (h1 ▸ hcp)]
      · rw [make_netmask_colon (h1 ▸ hcp)]
  · rfl

theorem parseNetworkToken_colon {t : List Char} (h : ':' ∈ t) :
    parseNetworkToken t = none := by
  unfold parseNetworkToken
  apply ipv4NetworkOfChars_colon
  apply mem_pyStrip (by decide)
  split
  · exact h
  · exact List.mem_append.mpr (Or.inl h)

/-! ### The overlap branch is never executed on sorted canonical input -/

theorem overlapBranchTaken_false :
    ∀ (l : List IPv4Network) (c : IPv4Network), Canonical c →
    (∀ x ∈ l, Canonical x) → l.Pairwise netLE →
    (∀ x ∈ l, c.network_address ≤ x.network_address) →
    overlapBranchTaken c l = false := by
  intro l
  induction l with
  | nil =>
    intro c _ _ _ _
    rfl
  | cons n rest ih =>
    intro c hc hcanon hsorted hcle
    have hn : Canonical n := hcanon n (by simp)
    have hrest : ∀ x ∈ rest, Canonical x := fun x hx => hcanon x (by simp [hx])
    have hsorted2 : rest.Pairwise netLE := (List.pairwise_cons.mp hsorted).2
    have hnle : ∀ x ∈ rest, n.network_address ≤ x.network_address :=
      fun x hx => (List.pairwise_cons.mp hsorted).1 x hx
    have hcn : c.network_address ≤ n.network_address := hcle n (by simp)
    by_cases h1 : c.supernet_of n
    · simp only [overlapBranchTaken, if_pos h1]
      exact ih c hc hrest hsorted2 (fun x hx => hcle x (by simp [hx]))
    · by_cases h2 : n.supernet_of c
      · simp only [overlapBranchTaken, if_neg h1, if_pos h2]
        exact ih n hn hrest hsorted2 hnle
      · have hdis : ¬ (c.network_address ≤ n.broadcast_address ∧
            n.network_address ≤ c.broadcast_address) := by
          intro hov
          rcases cidr_laminar hc hn hcn hov.2 with h | h
          · exact h1 h
          · exact h2 h
        simp only [overlapBranchTaken, if_neg h1, if_neg h2, if_neg hdis]
        exact ih n hn hrest hsorted2 hnle

/-! ### Parsing a formatted dotted quad of arbitrary octet values -/

theorem ip_int_from_chars_quad {a b c d : Nat} (ha : a < 256) (hb : b < 256)
    (hc : c < 256) (hd : d < 256) :
    ip_int_from_chars (natChars a ++ ('.' :: (natChars b ++ ('.' :: (natChars c ++
      ('.' :: natChars d)))))) = some (((a * 256 + b) * 256 + c) * 256 + d) := by
  have hne : (natChars a ++ ('.' :: (natChars b ++ ('.' :: (natChars c ++
      ('.' :: natChars d)))))) ≠ [] := by
    simp [List.append_eq_nil]
  unfold ip_int_from_chars
  rw [if_neg hne, splitOnChar_append _ (dot_not_mem_natChars ha),
    splitOnChar_append _ (dot_not_mem_natChars hb),
    splitOnChar_append _ (dot_not_mem_natChars hc),
    splitOnChar_of_not_mem (dot_not_mem_natChars hd)]
  simp only [parse_octet_natChars _ ha, parse_octet_natChars _ hb,
    parse_octet_natChars _ hc, parse_octet_natChars _ hd]

theorem quad_no_space {a b c d : Nat} (ha : a < 256) (hb : b < 256)
    (hc : c < 256) (hd : d < 256) {ch : Char}
    (hch : ch ∈ natChars a ++ ('.' :: (natChars b ++ ('.' :: (natChars c ++
      ('.' :: natChars d)))))) : isPySpace ch = false := by
  simp only [List.mem_append, List.mem_cons] at hch
  rcases hch with h1 | h1 | h1 | h1 | h1 | h1 | h1
  · exact digit_not_pySpace (natChars_mem_digit ha h1)
  · subst h1
    decide
  · exact digit_not_pySpace (natChars_mem_digit hb h1)
  · subst h1
    decide
  · exact digit_not_pySpace (natChars_mem_digit hc h1)
  · subst h1
    decide
  · exact digit_not_pySpace (natChars_mem_digit hd h1)

theorem quad_no_slash {a b c d : Nat} (ha : a < 256) (hb : b < 256)
    (hc : c < 256) (hd : d < 256) :
    '/' ∉ natChars a ++ ('.' :: (natChars b ++ ('.' :: (natChars c ++
      ('.' :: natChars d))))) := by
  intro hch
  simp only [List.mem_append, List.mem_cons] at hch
  rcases hch with h1 | h1 | h1 | h1 | h1 | h1 | h1
  · exact slash_not_mem_natChars ha h1
  · exact absurd h1 (by decide)
  · exact slash_not_mem_natChars hb h1
  · exact absurd h1 (by decide)
  · exact slash_not_mem_natChars hc h1
  · exact absurd h1 (by decide)
  · exact slash_not_mem_natChars hd h1

/-! ### The claims -/

/-- Character list of a string literal, for concrete example tokens. -/
def tok (s : String) : List Char := s.data

/-- C1: Containment-freedom of the consolidated output: for every input
list of tokens, no two distinct elements of the list returned by
`consolidate_networks` satisfy "one contains the other", neither strictly
nor by equality. -/
theorem C1_containment_freedom (toks : List (List Char)) :
    (consolidate_networks toks).Pairwise
      (fun a b => ¬ a.supernet_of b ∧ ¬ b.supernet_of a) := by
  have B := (consolidate_networks_spec toks).2.1
  refine B.imp_of_mem ?_
  intro a b ha hb hr
  have h1 := start_le_broadcast (consolidate_networks_canonical ha)
  have h2 := start_le_broadcast (consolidate_networks_canonical hb)
  have h3 : a.broadcast_address < b.network_address := hr
  constructor
  · intro hs
    have h4 := hs.2
    omega
  · intro hs
    have h4 := hs.1
    omega

/-- C2: Idempotence of consolidation: formatting the output of
`consolidate_networks` back to `a.b.c.d/n` strings and feeding that list
to `consolidate_networks` again yields exactly the same output
sequence. -/
theorem C2_idempotence (toks : List (List Char)) :
    consolidate_networks ((consolidate_networks toks).map format_network) =
      consolidate_networks toks := by
  have hparse : ((consolidate_networks toks).map format_network).filterMap
      parseNetworkToken = consolidate_networks toks := by
    rw [List.filterMap_map]
    apply filterMap_id_of_forall
    intro x hx
    exact parse_format (consolidate_networks_canonical hx)
  have hsorted : List.Sorted netLE (consolidate_networks toks) :=
    List.Pairwise.imp (fun h => Nat.le_of_lt h) (consolidate_networks_pairwise_lt toks)
  rw [consolidate_networks_def, hparse, hsorted.insertionSort_eq]
  rcases ho : consolidate_networks toks with _ | ⟨c, rest⟩
  · rfl
  · show consolidateLoop c rest = c :: rest
    have hpw : (c :: rest).Pairwise BlocksDisjointBelow := by
      have h := (consolidate_networks_spec toks).2.1
      rwa [ho] at h
    have hcanon : ∀ x ∈ c :: rest, Canonical x := fun x hx =>
      consolidate_networks_canonical (ho.symm ▸ hx)
    exact consolidateLoop_of_disjoint rest c (hcanon c (by simp))
      (fun x hx => hcanon x (by simp [hx])) hpw

/-- C3: Input-order independence: for every input list of tokens and
every permutation of it, `consolidate_networks` returns an identical
output sequence. -/
theorem C3_input_order_independence (t1 t2 : List (List Char)) (h : t1.Perm t2) :
    consolidate_networks t1 = consolidate_networks t2 := by
  apply strictSorted_eq_of_mem_iff _ _ (consolidate_networks_pairwise_lt t1)
    (consolidate_networks_pairwise_lt t2)
  intro x
  rw [consolidate_networks_mem_iff, consolidate_networks_mem_iff]
  have hp := h.filterMap parseNetworkToken
  constructor
  · rintro ⟨hx, hmax⟩
    exact ⟨hp.mem_iff.mp hx, fun y hy => hmax y (hp.mem_iff.mpr hy)⟩
  · rintro ⟨hx, hmax⟩
    exact ⟨hp.mem_iff.mpr hx, fun y hy => hmax y (hp.mem_iff.mp hy)⟩

theorem C3_witness :
    consolidate_networks [tok "10.0.0.0/24", tok "1.2.3.4", tok "10.0.0.128/25"] =
      consolidate_networks [tok "10.0.0.128/25", tok "10.0.0.0/24", tok "1.2.3.4"] :=
  C3_input_order_independence _ _ (by decide)

/-- C4: Coverage for non-overlapping inputs: when every token parses and
the distinct parsed blocks are pairwise disjoint with a gap between them
(disjoint and non-adjacent), the output is exactly the deduplicated set
of the parsed blocks in ascending network-address order. -/
theorem C4_coverage_nonoverlapping (toks : List (List Char))
    (hvalid : ∀ t ∈ toks, (parseNetworkToken t).isSome = true)
    (hsep : ∀ a ∈ toks.filterMap parseNetworkToken,
      ∀ b ∈ toks.filterMap parseNetworkToken, a ≠ b →
        a.broadcast_address + 1 < b.network_address ∨
        b.broadcast_address + 1 < a.network_address) :
    (consolidate_networks toks).Pairwise
      (fun a b => a.network_address < b.network_address) ∧
    (∀ x, x ∈ consolidate_networks toks ↔ x ∈ toks.filterMap parseNetworkToken) := by
  refine ⟨consolidate_networks_pairwise_lt toks, fun x => ?_⟩
  rw [consolidate_networks_mem_iff]
  constructor
  · rintro ⟨h1, _⟩
    exact h1
  · intro hx
    refine ⟨hx, fun y hy hsup => ?_⟩
    by_contra hne
    have h1 := start_le_broadcast (mem_parsed_canonical hx)
    have h2 := start_le_broadcast (mem_parsed_canonical hy)
    have h3 := hsup.1
    have h4 := hsup.2
    rcases hsep y hy x hx hne with h5 | h5
    · omega
    · omega

theorem C4_witness :
    (consolidate_networks [tok "10.0.2.0/24", tok "10.0.0.0/24"]).Pairwise
      (fun a b => a.network_address < b.network_address) ∧
    (∀ x, x ∈ consolidate_networks [tok "10.0.2.0/24", tok "10.0.0.0/24"] ↔
      x ∈ ([tok "10.0.2.0/24", tok "10.0.0.0/24"] : List (List Char)).filterMap
        parseNetworkToken) :=
  C4_coverage_nonoverlapping [tok "10.0.2.0/24", tok "10.0.0.0/24"]
    (by decide) (by decide)

/-- C5: Adjacent blocks are not merged: when the parsed input consists of
exactly two blocks whose address ranges are contiguous (the first one ends
immediately before the second one starts), both blocks are emitted
unmerged, in order. -/
theorem C5_adjacency_not_merged (toks : List (List Char)) (a b : IPv4Network)
    (hparsed : toks.filterMap parseNetworkToken = [a, b])
    (hadj : a.broadcast_address + 1 = b.network_address) :
    consolidate_networks toks = [a, b] := by
  have hma : a ∈ toks.filterMap parseNetworkToken := by
    rw [hparsed]
    simp
  have hmb : b ∈ toks.filterMap parseNetworkToken := by
    rw [hparsed]
    simp
  have hca := mem_parsed_canonical hma
  have hcb := mem_parsed_canonical hmb
  have h1 := start_le_broadcast hca
  have h2 := start_le_broadcast hcb
  have hsorted : List.Sorted netLE [a, b] := by
    rw [List.sorted_cons]
    constructor
    · intro x hx
      simp only [List.mem_singleton] at hx
      subst hx
      show a.network_address ≤ x.network_address
      omega
    · simp
  rw [consolidate_networks_def, hparsed, hsorted.insertionSort_eq]
  show consolidateLoop a [b] = [a, b]
  apply consolidateLoop_of_disjoint
  · exact hca
  · intro x hx
    simp only [List.mem_singleton] at hx
    subst hx
    exact hcb
  · rw [List.pairwise_cons]
    refine ⟨fun x hx => ?_, by simp⟩
    simp only [List.mem_singleton] at hx
    subst hx
    show a.broadcast_address < x.network_address
    omega

theorem C5_witness :
    consolidate_networks [tok "10.0.0.0/24", tok "10.0.1.0/24"] =
      [{ network_address := 167772160, prefixlen := 24 },
        { network_address := 167772416, prefixlen := 24 }] :=
  C5_adjacency_not_merged [tok "10.0.0.0/24", tok "10.0.1.0/24"]
    { network_address := 167772160, prefixlen := 24 }
    { network_address := 167772416, prefixlen := 24 }
    (by decide) (by decide)

/-- C6: Canonical-form invariant of the output: every range in the output
of `consolidate_networks` has no host bits set in its network address
(start AND hostmask equals zero). -/
theorem C6_canonical_invariant (toks : List (List Char)) :
    ∀ n ∈ consolidate_networks toks,
      n.network_address &&& hostmaskOf n.prefixlen = 0 := by
  intro n hn
  have hc := consolidate_networks_canonical hn
  rw [hostmaskOf_eq _ hc.1, Nat.and_pow_two_sub_one_eq_mod]
  exact hc.2.2

theorem C6_witness :
    (167772160 : Nat) &&& hostmaskOf 24 = 0 :=
  C6_canonical_invariant [tok "10.0.0.5/24"]
    { network_address := 167772160, prefixlen := 24 } (by decide)

/-- C7: Malformed-token tolerance: a token that fails to parse (in
particular any token containing a colon) is skipped, so inserting it
anywhere in the batch leaves the output unchanged; a malformed token is
never fatal. -/
theorem C7_malformed_tolerance (toks1 toks2 : List (List Char)) (t : List Char)
    (h : parseNetworkToken t = none ∨ ':' ∈ t) :
    consolidate_networks (toks1 ++ t :: toks2) =
      consolidate_networks (toks1 ++ toks2) := by
  have hnone : parseNetworkToken t = none := by
    rcases h with h | h
    · exact h
    · exact parseNetworkToken_colon h
  have hfm : (toks1 ++ t :: toks2).filterMap parseNetworkToken =
      (toks1 ++ toks2).filterMap parseNetworkToken := by
    simp [List.filterMap_append, List.filterMap_cons, hnone]
  rw [consolidate_networks_def, consolidate_networks_def, hfm]

theorem C7_witness :
    consolidate_networks [tok "10.0.0.0/24", tok "not-an-ip", tok "10.0.1.0/24"] =
      consolidate_networks [tok "10.0.0.0/24", tok "10.0.1.0/24"] :=
  C7_malformed_tolerance [tok "10.0.0.0/24"] [tok "10.0.1.0/24"] (tok "not-an-ip")
    (Or.inl (by decide))

/-- C8: Normalizer leniency: a token `a.b.c.d/n` with octet values below
256 and `n ≤ 32` parses successfully and its host bits are cleared (the
network address becomes the value rounded down to a multiple of the block
size), and a bare token `a.b.c.d` parses to the same address with prefix
length 32. -/
theorem C8_normalizer_leniency (a b c d p : Nat)
    (ha : a < 256) (hb : b < 256) (hc : c < 256) (hd : d < 256) (hp : p ≤ 32) :
    parseNetworkToken (natChars a ++ ('.' :: (natChars b ++ ('.' :: (natChars c ++
        ('.' :: (natChars d ++ ('/' :: natChars p)))))))) =
      some { network_address :=
               2 ^ (32 - p) * ((((a * 256 + b) * 256 + c) * 256 + d) / 2 ^ (32 - p)),
             prefixlen := p } ∧
    parseNetworkToken (natChars a ++ ('.' :: (natChars b ++ ('.' :: (natChars c ++
        ('.' :: natChars d)))))) =
      some { network_address := ((a * 256 + b) * 256 + c) * 256 + d,
             prefixlen := 32 } := by
  have hx : (((a * 256 + b) * 256 + c) * 256 + d) < 2 ^ 32 := by omega
  constructor
  · have hcont : (natChars a ++ ('.' :: (natChars b ++ ('.' :: (natChars c ++
        ('.' :: (natChars d ++ ('/' :: natChars p)))))))).contains '/' = true := by
      apply List.elem_iff.mpr
      simp
    have hregroup : natChars a ++ ('.' :: (natChars b ++ ('.' :: (natChars c ++
        ('.' :: (natChars d ++ ('/' :: natChars p))))))) =
        (natChars a ++ ('.' :: (natChars b ++ ('.' :: (natChars c ++
          ('.' :: natChars d)))))) ++ ('/' :: natChars p) := by
      simp [List.append_assoc]
    have hnospace : ∀ ch ∈ natChars a ++ ('.' :: (natChars b ++ ('.' :: (natChars c ++
        ('.' :: (natChars d ++ ('/' :: natChars p))))))), isPySpace ch = false := by
      intro ch hch
      rw [hregroup] at hch
      rcases List.mem_append.mp hch with h1 | h1
      · exact quad_no_space ha hb hc hd h1
      · rcases List.mem_cons.mp h1 with h2 | h2
        · subst h2
          decide
        · exact digit_not_pySpace (natChars_mem_digit (by omega) h2)
    unfold parseNetworkToken
    rw [if_pos hcont, pyStrip_eq_self hnospace, hregroup]
    have hsplit : splitOnChar '/' ((natChars a ++ ('.' :: (natChars b ++
        ('.' :: (natChars c ++ ('.' :: natChars d)))))) ++ ('/' :: natChars p)) =
        [natChars a ++ ('.' :: (natChars b ++ ('.' :: (natChars c ++
          ('.' :: natChars d))))), natChars p] := by
      rw [splitOnChar_append _ (quad_no_slash ha hb hc hd),
        splitOnChar_of_not_mem (slash_not_mem_natChars (by omega))]
    simp only [ipv4NetworkOfChars, hsplit, ip_int_from_chars_quad ha hb hc hd,
      make_netmask_natChars hp]
    rw [land_netmask p _ hp hx]
  · have hncont : (natChars a ++ ('.' :: (natChars b ++ ('.' :: (natChars c ++
        ('.' :: natChars d)))))).contains '/' = false := by
      rw [Bool.eq_false_iff]
      intro hcont
      exact quad_no_slash ha hb hc hd (List.elem_iff.mp hcont)
    unfold parseNetworkToken
    rw [if_neg (by rw [hncont]; simp)]
    have hnospace2 : ∀ ch ∈ (natChars a ++ ('.' :: (natChars b ++ ('.' :: (natChars c ++
        ('.' :: natChars d)))))) ++ ['/', '3', '2'], isPySpace ch = false := by
      intro ch hch
      rcases List.mem_append.mp hch with h1 | h1
      · exact quad_no_space ha hb hc hd h1
      · simp only [List.mem_cons, List.not_mem_nil, or_false] at h1
        rcases h1 with h2 | h2 | h2
        · subst h2
          decide
        · subst h2
          decide
        · subst h2
          decide
    rw [pyStrip_eq_self hnospace2]
    have hsplit2 : splitOnChar '/' ((natChars a ++ ('.' :: (natChars b ++
        ('.' :: (natChars c ++ ('.' :: natChars d)))))) ++ ['/', '3', '2']) =
        [natChars a ++ ('.' :: (natChars b ++ ('.' :: (natChars c ++
          ('.' :: natChars d))))), ['3', '2']] := by
      have h32 : (['/', '3', '2'] : List Char) = '/' :: ['3', '2'] := rfl
      rw [h32, splitOnChar_append _ (quad_no_slash ha hb hc hd),
        splitOnChar_of_not_mem (by decide)]
    have hmn : make_netmask ['3', '2'] = some 32 := by decide
    simp only [ipv4NetworkOfChars, hsplit2, ip_int_from_chars_quad ha hb hc hd, hmn]
    have hid : (((a * 256 + b) * 256 + c) * 256 + d) &&& netmaskOf 32 =
        ((a * 256 + b) * 256 + c) * 256 + d := by
      rw [land_netmask 32 _ (by omega) hx]
      simp
    rw [hid]

theorem C8_witness :
    parseNetworkToken (natChars 10 ++ ('.' :: (natChars 0 ++ ('.' :: (natChars 0 ++
        ('.' :: (natChars 5 ++ ('/' :: natChars 24)))))))) =
      some { network_address :=
               2 ^ (32 - 24) * ((((10 * 256 + 0) * 256 + 0) * 256 + 5) / 2 ^ (32 - 24)),
             prefixlen := 24 } ∧
    parseNetworkToken (natChars 10 ++ ('.' :: (natChars 0 ++ ('.' :: (natChars 0 ++
        ('.' :: natChars 5)))))) =
      some { network_address := ((10 * 256 + 0) * 256 + 0) * 256 + 5,
             prefixlen := 32 } :=
  C8_normalizer_leniency 10 0 0 5 24 (by decide) (by decide) (by decide)
    (by decide) (by decide)

/-- C9: The partial-overlap branch is unreachable for canonical input: on
a sequence of canonical blocks sorted ascending by network address the
merge pass never executes the overlap-summarization branch. -/
theorem C9_overlap_branch_unreachable (current : IPv4Network)
    (l : List IPv4Network) (hcanon : ∀ x ∈ current :: l, Canonical x)
    (hsorted : List.Sorted netLE (current :: l)) :
    overlapBranchTaken current l = false := by
  have hpw := List.sorted_cons.mp hsorted
  exact overlapBranchTaken_false l current (hcanon current (by simp))
    (fun x hx => hcanon x (by simp [hx])) hpw.2 hpw.1

theorem C9_witness :
    overlapBranchTaken { network_address := 167772160, prefixlen := 24 }
      [{ network_address := 167772160, prefixlen := 25 },
        { network_address := 167772416, prefixlen := 24 }] = false :=
  C9_overlap_branch_unreachable
    { network_address := 167772160, prefixlen := 24 }
    [{ network_address := 167772160, prefixlen := 25 },
      { network_address := 167772416, prefixlen := 24 }]
    (by decide) (by decide)

/-- C10: Pairwise disjointness of the output: for every input list of
tokens, the ranges of the output blocks are pairwise disjoint (each block
ends strictly before the next begins) and the network addresses are
strictly increasing. -/
theorem C10_pairwise_disjoint (toks : List (List Char)) :
    (consolidate_networks toks).Pairwise
      (fun a b => a.broadcast_address < b.network_address) ∧
    (consolidate_networks toks).Pairwise
      (fun a b => a.network_address < b.network_address) :=
  ⟨(consolidate_networks_spec toks).2.1, consolidate_networks_pairwise_lt toks⟩
